import Mathlib

/-!
Verification development for the hyperlaunch unified-search core
(`src/apps/hyperlaunch/src/main.rs`).

The Rust code is shallowly embedded as follows:

* Rust `&str` / `String` values are Lean `String`s; character-level work is
  done on `String.data : List Char`.  Case folding and word splitting are
  modelled in the ASCII range of `str::to_lowercase` and
  `char::is_alphanumeric`.  The content walker's line truncation is
  byte-based in the source (`line.len() > 100`, `&line[..100]`) and the
  slice panics when byte 100 is not a character boundary; this is modelled
  exactly, panic included, by `byteTake`/`lineContext` and the `B`-suffixed
  content pipeline, while the earlier character-count pipeline is kept as
  the totalized approximation used by the budget/count theorems, which do
  not inspect the context text.
* `f64` scores are modelled by `ℚ`.  Every score the program computes is an
  integer or an integer multiple of `1/4` (tier constants, `hits + 1.5*run`,
  boosts `×100`, `×5`, and the net config penalty `5.0 * 0.1`, which rounds
  to exactly `0.5` in IEEE double), so all the floating-point arithmetic on
  the search path is exact and the rational model coincides with it.
* The filesystem walkers (`ignore::WalkBuilder` streams, file opening and
  line reading) perform I/O; their *outputs* are modelled as explicit input
  lists, with every fallible step kept as an `Except` value, mirroring how
  the code skips `Err` items (`filter_map(|e| e.ok())`, `if let Ok(..)`).
* Global mutable counters of the walks become explicit accumulator
  arguments of the loop functions.
-/

set_option maxHeartbeats 4000000
set_option maxRecDepth 4000

/-- Models the ASCII fragment of Rust `str::to_lowercase`, character by
character: an uppercase ASCII letter is shifted by 32, anything else is
kept. -/
def lowerChar (c : Char) : Char :=
  if 65 ≤ c.toNat ∧ c.toNat ≤ 90 then Char.ofNat (c.toNat + 32) else c

/-- Lowercasing of a character list, modelling `String::to_lowercase`. -/
def lowerL (l : List Char) : List Char := l.map lowerChar

/-- The Unicode `White_Space` code points recognized by Rust
`char::is_whitespace`. -/
def rustIsWhitespace (c : Char) : Bool :=
  let n := c.toNat
  (decide (9 ≤ n) && decide (n ≤ 13)) || n == 32 || n == 133 || n == 160 ||
    n == 5760 || (decide (8192 ≤ n) && decide (n ≤ 8202)) || n == 8232 ||
    n == 8233 || n == 8239 || n == 8287 || n == 12288

/-- Models `query.trim().is_empty()`: the trimmed string is empty exactly
when every character of the string is whitespace. -/
def rustTrimIsEmpty (q : String) : Bool := q.data.all rustIsWhitespace

/-- Models Rust `str::split(|c: char| !c.is_alphanumeric())`: the list of
maximal chunks between non-alphanumeric separators, including the empty
chunks Rust's `split` produces at the ends and between adjacent
separators.  The result is always non-empty. -/
def splitNonAlnum : List Char → List (List Char)
  | [] => [[]]
  | c :: cs =>
    if c.isAlphanum then
      match splitNonAlnum cs with
      | [] => [[c]]
      | w :: ws => (c :: w) :: ws
    else
      [] :: splitNonAlnum cs

/-- Models the `while i < hay_chars.len() && j < needle_chars.len()` scan of
`fuzzy_score`: the first list is the remaining haystack, the second the
remaining needle, and `hits`/`cont`/`best` are the loop-local counters.
Returns the final `(hits, best_cont, j == needle_chars.len())`. -/
def fuzzyScan : List Char → List Char → Nat → Nat → Nat → Nat × Nat × Bool
  | _, [], hits, _cont, best => (hits, best, true)
  | [], _ :: _, hits, _cont, best => (hits, best, false)
  | h :: hs, n :: ns, hits, cont, best =>
    if h = n then fuzzyScan hs ns (hits + 1) (cont + 1) (Nat.max best (cont + 1))
    else fuzzyScan hs (n :: ns) hits 0 best

/-- Models `fn fuzzy_score(hay: &str, needle: &str) -> f64` on character
lists: lowercase both sides, then try exact equality (1000), prefix (500),
word-boundary prefix (250), and finally the greedy subsequence scan
(`hits + best_cont * 1.5` on success, `-1` on failure). -/
def fuzzyCore (hay needle : List Char) : ℚ :=
  if lowerL hay = lowerL needle then 1000
  else if (lowerL needle).isPrefixOf (lowerL hay) then 500
  else if (splitNonAlnum (lowerL hay)).any (fun w => (lowerL needle).isPrefixOf w) then 250
  else if (fuzzyScan (lowerL hay) (lowerL needle) 0 0 0).2.2 then
    ((fuzzyScan (lowerL hay) (lowerL needle) 0 0 0).1 : ℚ) +
      ((fuzzyScan (lowerL hay) (lowerL needle) 0 0 0).2.1 : ℚ) * 1.5
  else -1

/-- `fuzzy_score` on Lean `String`s, the direct counterpart of the Rust
function. -/
def fuzzy_score (hay needle : String) : ℚ := fuzzyCore hay.data needle.data

/-- Models `str::contains(&str)`: `hasSubstr hay sub` is true when `sub`
occurs contiguously inside `hay`. -/
def hasSubstr : List Char → List Char → Bool
  | [], sub => sub.isEmpty
  | c :: t, sub => sub.isPrefixOf (c :: t) || hasSubstr t sub

/-- The `SearchResult` struct of the program.  `result_type` is one of
`"app"`, `"file"`, `"directory"`, `"content"`; `path` holds the launch
command for apps and the filesystem path otherwise. -/
structure SearchResult where
  result_type : String
  name : String
  path : String
  icon_data : Option String
  context : Option String
  line_number : Option Nat
  score : ℚ
  deriving DecidableEq

/-- The `AppEntry` struct: one discovered application. -/
structure AppEntry where
  name : String
  exec : String
  icon : Option String
  icon_data : Option String
  source : String
  deriving DecidableEq

/-- One entry yielded by the name walker's `ignore::WalkBuilder` stream, as
seen by the loop body of `search_files_by_name`: its path, the base name
(`path.file_name()`, which can be absent), and whether it is a directory. -/
structure FsEntry where
  path : String
  name : Option String
  isDir : Bool
  deriving DecidableEq

deriving instance DecidableEq for Except

/-- One entry yielded by the content walker's stream, as seen by the loop
body of `search_file_contents`: path, optional base name, file-ness, the
size from `path.metadata()`, and the outcome of `fs::File::open` followed
by `reader.lines()` — the open can fail, and each line read can fail
independently. -/
structure ContentEntry where
  path : String
  name : Option String
  isFile : Bool
  size : Nat
  openResult : Except Unit (List (Except Unit String))
  deriving DecidableEq

/-- Models `dirs::home_dir().unwrap_or_else(|| PathBuf::from("/"))`, the
root-resolution step shared by both walkers. -/
def resolveHome (home : Option String) : String := home.getD "/"

/-- Drops the `Err` items of a walker stream, as `filter_map(|e| e.ok())`
does before the loop body runs. -/
def dropErrors {α : Type} (l : List (Except Unit α)) : List (Except Unit α) :=
  l.filter fun x => x.isOk

/-- The paths of the `Ok` entries of a content-walker stream, in order. -/
def okContentPaths (entries : List (Except Unit ContentEntry)) : List String :=
  entries.filterMap fun x =>
    match x with
    | Except.ok e => some e.path
    | Except.error _ => none

/-- Character-count approximation of the matched-line context of a
`Content` result: the line itself, or its first 100 characters followed by
`"..."` when it is longer.  The source tests the UTF-8 **byte** length and
slices 100 **bytes** (panicking off a character boundary); that exact
behaviour is modelled by `lineContext` below, and this totalized
character-level version is only used by theorems that never inspect the
context text. -/
def truncLine (l : String) : String :=
  if 100 < l.length then String.mk (l.data.take 100 ++ "...".data) else l

/-- The `SearchResult` pushed by `search_file_contents` on a match:
`name` is the base name (`"unknown"` when absent), `score` is the fixed 10. -/
def contentResult (e : ContentEntry) (ln : Nat) (ctx : String) : SearchResult :=
  { result_type := "content", name := e.name.getD "unknown", path := e.path,
    icon_data := none, context := some ctx, line_number := some ln, score := 10 }

/-- Models the per-file line loop of `search_file_contents`:
`reader.lines().enumerate().take(500)` has already been reduced to the
`take 500` of the line list by the caller; `idx` is the 0-based index of
the head of the remaining list.  Returns the 1-based line number and the
truncated context of the first matching `Ok` line, if any.  `q` is the
already-lowercased query. -/
def findMatch (q : List Char) : List (Except Unit String) → Nat → Option (Nat × String)
  | [], _ => none
  | (Except.error _) :: rest, idx => findMatch q rest (idx + 1)
  | (Except.ok line) :: rest, idx =>
    if hasSubstr (lowerL line.data) q then some (idx + 1, truncLine line)
    else findMatch q rest (idx + 1)

/-- The main loop of `search_file_contents` over the walker stream.
`fc` is the `files_checked` counter, `acc` the results vector, and the
second component of the result is ghost instrumentation recording, in
order, every entry on which the `fs::File::open` call was reached. -/
def sfcLoop (q : List Char) (maxr : Nat) :
    List (Except Unit ContentEntry) → Nat → List SearchResult → List ContentEntry →
    List SearchResult × List ContentEntry
  | [], _, acc, opened => (acc, opened)
  | (Except.error _) :: rest, fc, acc, opened => sfcLoop q maxr rest fc acc opened
  | (Except.ok e) :: rest, fc, acc, opened =>
    if e.isFile then
      if fc + 1 > 2000 then (acc, opened)
      else if e.size > 500000 then sfcLoop q maxr rest (fc + 1) acc opened
      else
        match e.openResult with
        | Except.error _ => sfcLoop q maxr rest (fc + 1) acc (opened ++ [e])
        | Except.ok ls =>
          let acc' :=
            match findMatch q (ls.take 500) 0 with
            | some (ln, ctx) => acc ++ [contentResult e ln ctx]
            | none => acc
          if maxr ≤ acc'.length then (acc', opened ++ [e])
          else sfcLoop q maxr rest (fc + 1) acc' (opened ++ [e])
    else sfcLoop q maxr rest fc acc opened

/-- Models `fn search_file_contents(query, max_results)`, with the walker
stream supplied explicitly: run the loop with fresh counters, then
`results.truncate(max_results)`. -/
def search_file_contents (entries : List (Except Unit ContentEntry))
    (query : String) (max_results : Nat) : List SearchResult :=
  ((sfcLoop (lowerL query.data) max_results entries 0 [] []).1).take max_results

/-- The entries on which `search_file_contents` reached the
`fs::File::open` call, in order. -/
def contentOpened (entries : List (Except Unit ContentEntry))
    (query : String) (max_results : Nat) : List ContentEntry :=
  (sfcLoop (lowerL query.data) max_results entries 0 [] []).2

/-- What it means for a single content entry to produce the result `r`:
its open succeeded, some line among the first 500 is readable, contains the
query, no earlier readable line does, and `r` is exactly the result the
code pushes for that line. -/
def entryHit (q : List Char) (e : ContentEntry) (r : SearchResult) : Prop :=
  ∃ ls, e.openResult = Except.ok ls ∧ ∃ i line,
    (ls.take 500)[i]? = some (Except.ok line) ∧
    hasSubstr (lowerL line.data) q = true ∧
    (∀ j l', j < i → (ls.take 500)[j]? = some (Except.ok l') →
      hasSubstr (lowerL l'.data) q = false) ∧
    r = contentResult e (i + 1) (truncLine line)

/-- The `SearchResult` pushed by `search_files_by_name` for a scored entry. -/
def nameResult (e : FsEntry) (nm : String) (s : ℚ) : SearchResult :=
  { result_type := if e.isDir then "directory" else "file", name := nm,
    path := e.path, icon_data := none, context := none, line_number := none,
    score := s }

/-- The main loop of `search_files_by_name` over the walker stream: count
every `Ok` entry, stop past 5000, score the base name, keep non-negative
scores, and exit early once `max_results * 2` results are collected. -/
def sfbnLoop (q : String) (maxr : Nat) :
    List (Except Unit FsEntry) → Nat → List SearchResult → List SearchResult
  | [], _, acc => acc
  | (Except.error _) :: rest, cnt, acc => sfbnLoop q maxr rest cnt acc
  | (Except.ok e) :: rest, cnt, acc =>
    if cnt + 1 > 5000 then acc
    else
      match e.name with
      | none => sfbnLoop q maxr rest (cnt + 1) acc
      | some nm =>
        let s := fuzzy_score nm q
        if 0 ≤ s then
          let acc' := acc ++ [nameResult e nm s]
          if maxr * 2 ≤ acc'.length then acc' else sfbnLoop q maxr rest (cnt + 1) acc'
        else sfbnLoop q maxr rest (cnt + 1) acc

/-- Stable insertion of a result into a score-descending list; `insertDesc`
places `r` after every earlier element of equal score. -/
def insertDesc (r : SearchResult) : List SearchResult → List SearchResult
  | [] => [r]
  | x :: xs => if x.score < r.score then r :: x :: xs else x :: insertDesc r xs

/-- Models `sort_by(|a, b| b.score.partial_cmp(&a.score).unwrap())`: a
stable sort by descending score.  No score is NaN in the rational model, so
the `unwrap` never fires. -/
def sortByScoreDesc (l : List SearchResult) : List SearchResult :=
  l.foldr insertDesc []

/-- Models `fn search_files_by_name(query, max_results)`, with the walker
stream supplied explicitly: loop, sort by descending score, truncate. -/
def search_files_by_name (entries : List (Except Unit FsEntry))
    (query : String) (max_results : Nat) : List SearchResult :=
  (sortByScoreDesc (sfbnLoop query max_results entries 0 [])).take max_results

/-- The final score of an app result in `unified_search`:
`max(score(name), score(exec)) * 100.0`. -/
def appFinalScore (app : AppEntry) (query : String) : ℚ :=
  max (fuzzy_score app.name query) (fuzzy_score app.exec query) * 100

/-- The app-collection step of `unified_search`: every entry whose best
fuzzy score is non-negative becomes an `"app"` result with the ×100 boost. -/
def collectAppResults (apps : List AppEntry) (query : String) : List SearchResult :=
  apps.filterMap fun app =>
    if 0 ≤ max (fuzzy_score app.name query) (fuzzy_score app.exec query) then
      some { result_type := "app", name := app.name, path := app.exec,
             icon_data := app.icon_data, context := some app.exec,
             line_number := none, score := appFinalScore app query }
    else none

/-- Models the config-directory test of `unified_search`:
`path.contains("/.config/") || path.contains("/.local/") || path.contains("/.cache/")`. -/
def isConfigPath (p : String) : Bool :=
  hasSubstr p.data "/.config/".data || hasSubstr p.data "/.local/".data ||
    hasSubstr p.data "/.cache/".data

/-- The penalty factor of `unified_search` for name-walker results: `0.1`
for config-tree paths, `1.0` otherwise. -/
def configPenalty (p : String) : ℚ := if isConfigPath p then 1/10 else 1

/-- The final score of a name-walker result in `unified_search`:
`score *= 5.0 * penalty`.  In IEEE double `5.0 * 0.1` rounds to exactly
`0.5`, so the rational `5 * (1/10)` coincides with the code. -/
def nameFinalScore (s : ℚ) (p : String) : ℚ := s * (5 * configPenalty p)

/-- Models `fn unified_search(query: String) -> Vec<SearchResult>`, with
the three source streams supplied explicitly (the app list from
`collect_desktop_entries`, and the two walker streams): empty-query guard,
app results with ×100 boost, name results with ×5 boost and config
penalty, content results when the query has at least 4 characters, then a
descending sort and truncation to 50. -/
def unified_search (apps : List AppEntry) (nameEntries : List (Except Unit FsEntry))
    (contentEntries : List (Except Unit ContentEntry)) (query : String) :
    List SearchResult :=
  if rustTrimIsEmpty query then [] else
  let appResults := collectAppResults apps query
  let fileResults := (search_files_by_name nameEntries query 20).map
    fun r => { r with score := nameFinalScore r.score r.path }
  let contentResults :=
    if 4 ≤ query.length then search_file_contents contentEntries query 15 else []
  (sortByScoreDesc (appResults ++ fileResults ++ contentResults)).take 50

/-- Models the byte slice `&line[..n]` of Rust: consume whole characters
while their accumulated UTF-8 sizes fit in `n`; return the consumed prefix
when the boundary lands exactly on `n`, and `none` — the slice panics —
when byte `n` falls inside a character (or past the end). -/
def byteTake : List Char → Nat → Option (List Char)
  | _, 0 => some []
  | [], _ + 1 => none
  | c :: cs, n + 1 =>
    if c.utf8Size ≤ n + 1 then
      match byteTake cs (n + 1 - c.utf8Size) with
      | some p => some (c :: p)
      | none => none
    else none

/-- The exact model of the context computation at the matched line
(`main.rs:339-343`): when the line exceeds 100 UTF-8 bytes, slice the first
100 bytes and append `"..."`; the slice panics (`Except.error`) when byte
100 is not a character boundary; otherwise the line is used whole. -/
def lineContext (line : String) : Except Unit String :=
  if 100 < line.utf8ByteSize then
    match byteTake line.data 100 with
    | some p => Except.ok (String.mk (p ++ "...".data))
    | none => Except.error ()
  else Except.ok line

/-- Byte-faithful variant of `findMatch`: same scan for the first readable
matching line, but the context carries the possible slice panic. -/
def findMatchB (q : List Char) : List (Except Unit String) → Nat →
    Option (Nat × Except Unit String)
  | [], _ => none
  | (Except.error _) :: rest, idx => findMatchB q rest (idx + 1)
  | (Except.ok line) :: rest, idx =>
    if hasSubstr (lowerL line.data) q then some (idx + 1, lineContext line)
    else findMatchB q rest (idx + 1)

/-- Byte-faithful variant of the content-walker loop: identical control
flow, except that a slice panic at a matched line aborts the whole walk
(`Except.error`), exactly as a Rust panic ends the call instead of
returning a vector. -/
def sfcLoopB (q : List Char) (maxr : Nat) :
    List (Except Unit ContentEntry) → Nat → List SearchResult →
    Except Unit (List SearchResult)
  | [], _, acc => Except.ok acc
  | (Except.error _) :: rest, fc, acc => sfcLoopB q maxr rest fc acc
  | (Except.ok e) :: rest, fc, acc =>
    if e.isFile then
      if fc + 1 > 2000 then Except.ok acc
      else if e.size > 500000 then sfcLoopB q maxr rest (fc + 1) acc
      else
        match e.openResult with
        | Except.error _ => sfcLoopB q maxr rest (fc + 1) acc
        | Except.ok ls =>
          match findMatchB q (ls.take 500) 0 with
          | some (_, Except.error _) => Except.error ()
          | some (ln, Except.ok ctx) =>
            if maxr ≤ (acc ++ [contentResult e ln ctx]).length then
              Except.ok (acc ++ [contentResult e ln ctx])
            else sfcLoopB q maxr rest (fc + 1) (acc ++ [contentResult e ln ctx])
          | none =>
            if maxr ≤ acc.length then Except.ok acc
            else sfcLoopB q maxr rest (fc + 1) acc
    else sfcLoopB q maxr rest fc acc

/-- Byte-faithful `search_file_contents`: either the truncated result list,
or the propagated slice panic. -/
def search_file_contentsB (entries : List (Except Unit ContentEntry))
    (query : String) (max_results : Nat) : Except Unit (List SearchResult) :=
  (sfcLoopB (lowerL query.data) max_results entries 0 []).map
    fun rs => rs.take max_results

/-- Byte-faithful `unified_search`: the app and name sources are infallible
as in the source; a content-walker panic propagates and the call returns no
list at all. -/
def unified_searchB (apps : List AppEntry) (nameEntries : List (Except Unit FsEntry))
    (contentEntries : List (Except Unit ContentEntry)) (query : String) :
    Except Unit (List SearchResult) :=
  if rustTrimIsEmpty query then Except.ok [] else
  let appResults := collectAppResults apps query
  let fileResults := (search_files_by_name nameEntries query 20).map
    fun r => { r with score := nameFinalScore r.score r.path }
  match (if 4 ≤ query.length then search_file_contentsB contentEntries query 15
    else Except.ok []) with
  | Except.error er => Except.error er
  | Except.ok contentResults =>
    Except.ok ((sortByScoreDesc (appResults ++ fileResults ++ contentResults)).take 50)

/-- What it means for a single content entry to produce the result `r` in
the byte-faithful pipeline: its open succeeded, some line among the first
500 is readable, contains the query, no earlier readable line does, the
byte-level context computation succeeded with `ctx`, and `r` is the pushed
result. -/
def entryHitB (q : List Char) (e : ContentEntry) (r : SearchResult) : Prop :=
  ∃ ls, e.openResult = Except.ok ls ∧ ∃ i line ctx,
    (ls.take 500)[i]? = some (Except.ok line) ∧
    hasSubstr (lowerL line.data) q = true ∧
    (∀ j l', j < i → (ls.take 500)[j]? = some (Except.ok l') →
      hasSubstr (lowerL l'.data) q = false) ∧
    lineContext line = Except.ok ctx ∧
    r = contentResult e (i + 1) ctx

/-- A concrete application entry used for instantiating the general
theorems below. -/
def wApp : AppEntry :=
  { name := "Firefox", exec := "firefox", icon := none, icon_data := none,
    source := "desktop" }

/-- A concrete name-walker entry used for instantiating the general
theorems below. -/
def wFs : FsEntry := { path := "/home/u/notes", name := some "notes", isDir := true }

/-- A concrete content-walker entry whose single line matches the query
`milk`. -/
def wContent : ContentEntry :=
  { path := "/h/a.txt", name := some "a.txt", isFile := true, size := 9,
    openResult := Except.ok [Except.ok "buy milk"] }

/-- The content result produced for `wContent` on the query `milk`. -/
def wContentRes : SearchResult :=
  { result_type := "content", name := "a.txt", path := "/h/a.txt", icon_data := none,
    context := some "buy milk", line_number := some 1, score := 10 }

/-- A matched line of 60 two-byte characters: 60 characters but 120 UTF-8
bytes, so the code truncates it although it is well under 100 characters. -/
def cexLine : String := String.mk (List.replicate 60 'é')

/-- The context the code actually emits for `cexLine`: the first 100 bytes
— 50 characters — plus the ellipsis. -/
def cexCtx : String := String.mk (List.replicate 50 'é' ++ "...".data)

/-- A content entry whose single line is `cexLine`. -/
def cexEntry : ContentEntry :=
  { path := "/h/b.txt", name := some "b.txt", isFile := true, size := 120,
    openResult := Except.ok [Except.ok cexLine] }

/-- The content result the byte-faithful walker emits for `cexEntry`. -/
def cexRes : SearchResult :=
  { result_type := "content", name := "b.txt", path := "/h/b.txt", icon_data := none,
    context := some cexCtx, line_number := some 1, score := 10 }

/-- A matched line of 99 `a` characters followed by the two-byte `é`:
101 UTF-8 bytes, with byte offset 100 falling inside the `é`, so the
slice `&line[..100]` panics. -/
def panicLine : String := String.mk (List.replicate 99 'a' ++ ['é'])

/-- A readable content entry whose single line is `panicLine`. -/
def panicEntry : ContentEntry :=
  { path := "/h/p.txt", name := some "p.txt", isFile := true, size := 101,
    openResult := Except.ok [Except.ok panicLine] }

section

attribute [local semireducible] Rat.add Rat.mul Rat.inv Rat.sub Rat.ofScientific

/-! Basic facts about `List.isPrefixOf` on characters, proved directly by
induction so they match the boolean form used in the embedding. -/

/-- A successful scan consumed the whole needle, one hit per needle
character: the final `hits` is the initial `hits` plus the needle length. -/
theorem fuzzyScan_ok_hits :
    ∀ (h n : List Char) (hits cont best : Nat),
      (fuzzyScan h n hits cont best).2.2 = true →
      (fuzzyScan h n hits cont best).1 = hits + n.length := by
  intro h
  induction h with
  | nil =>
    intro n hits cont best hok
    cases n with
    | nil => simp [fuzzyScan]
    | cons d ds => simp [fuzzyScan] at hok
  | cons c cs ih =>
    intro n hits cont best hok
    cases n with
    | nil => simp [fuzzyScan]
    | cons d ds =>
      by_cases hcd : c = d
      · rw [show fuzzyScan (c :: cs) (d :: ds) hits cont best =
          fuzzyScan cs ds (hits + 1) (cont + 1) (Nat.max best (cont + 1)) from by
            simp [fuzzyScan, hcd]] at hok ⊢
        rw [ih ds _ _ _ hok]
        simp [List.length_cons]
        omega
      · rw [show fuzzyScan (c :: cs) (d :: ds) hits cont best =
          fuzzyScan cs (d :: ds) hits 0 best from by simp [fuzzyScan, hcd]] at hok ⊢
        exact ih (d :: ds) _ _ _ hok

/-- The best-run counter never decreases during the scan. -/
theorem fuzzyScan_best_mono :
    ∀ (h n : List Char) (hits cont best : Nat), best ≤ (fuzzyScan h n hits cont best).2.1 := by
  intro h
  induction h with
  | nil =>
    intro n hits cont best
    cases n <;> simp [fuzzyScan]
  | cons c cs ih =>
    intro n hits cont best
    cases n with
    | nil => simp [fuzzyScan]
    | cons d ds =>
      by_cases hcd : c = d
      · rw [show fuzzyScan (c :: cs) (d :: ds) hits cont best =
          fuzzyScan cs ds (hits + 1) (cont + 1) (Nat.max best (cont + 1)) from by
            simp [fuzzyScan, hcd]]
        exact Nat.le_trans (Nat.le_max_left _ _) (ih ds _ _ _)
      · rw [show fuzzyScan (c :: cs) (d :: ds) hits cont best =
          fuzzyScan cs (d :: ds) hits 0 best from by simp [fuzzyScan, hcd]]
        exact ih (d :: ds) _ _ _

/-- A successful scan of a non-empty needle establishes a contiguous run of
at least one character. -/
theorem fuzzyScan_ok_best_pos :
    ∀ (h n : List Char) (hits cont best : Nat),
      (fuzzyScan h n hits cont best).2.2 = true → n ≠ [] →
      1 ≤ (fuzzyScan h n hits cont best).2.1 := by
  intro h
  induction h with
  | nil =>
    intro n hits cont best hok hne
    cases n with
    | nil => exact absurd rfl hne
    | cons d ds => simp [fuzzyScan] at hok
  | cons c cs ih =>
    intro n hits cont best hok hne
    cases n with
    | nil => exact absurd rfl hne
    | cons d ds =>
      by_cases hcd : c = d
      · rw [show fuzzyScan (c :: cs) (d :: ds) hits cont best =
          fuzzyScan cs ds (hits + 1) (cont + 1) (Nat.max best (cont + 1)) from by
            simp [fuzzyScan, hcd]]
        have h1 : 1 ≤ Nat.max best (cont + 1) := Nat.le_trans (Nat.le_add_left 1 cont)
          (Nat.le_max_right _ _)
        exact Nat.le_trans h1 (fuzzyScan_best_mono cs ds _ _ _)
      · rw [show fuzzyScan (c :: cs) (d :: ds) hits cont best =
          fuzzyScan cs (d :: ds) hits 0 best from by simp [fuzzyScan, hcd]] at hok ⊢
        exact ih (d :: ds) _ _ _ hok hne

/-! Evaluation lemmas for the four tiers of `fuzzyCore`. -/

theorem fuzzyCore_eq_exact {hay needle : List Char} (h1 : lowerL hay = lowerL needle) :
    fuzzyCore hay needle = 1000 := by
  unfold fuzzyCore; rw [if_pos h1]

theorem fuzzyCore_eq_pre {hay needle : List Char} (h1 : ¬ lowerL hay = lowerL needle)
    (h2 : (lowerL needle).isPrefixOf (lowerL hay) = true) :
    fuzzyCore hay needle = 500 := by
  unfold fuzzyCore; rw [if_neg h1, if_pos h2]

theorem fuzzyCore_eq_word {hay needle : List Char} (h1 : ¬ lowerL hay = lowerL needle)
    (h2 : ¬ (lowerL needle).isPrefixOf (lowerL hay) = true)
    (h3 : (splitNonAlnum (lowerL hay)).any (fun w => (lowerL needle).isPrefixOf w) = true) :
    fuzzyCore hay needle = 250 := by
  unfold fuzzyCore; rw [if_neg h1, if_neg (by simpa using h2), if_pos h3]

theorem fuzzyCore_eq_scan_ok {hay needle : List Char} (h1 : ¬ lowerL hay = lowerL needle)
    (h2 : ¬ (lowerL needle).isPrefixOf (lowerL hay) = true)
    (h3 : ¬ (splitNonAlnum (lowerL hay)).any (fun w => (lowerL needle).isPrefixOf w) = true)
    (h4 : (fuzzyScan (lowerL hay) (lowerL needle) 0 0 0).2.2 = true) :
    fuzzyCore hay needle =
      ((fuzzyScan (lowerL hay) (lowerL needle) 0 0 0).1 : ℚ) +
        ((fuzzyScan (lowerL hay) (lowerL needle) 0 0 0).2.1 : ℚ) * 1.5 := by
  unfold fuzzyCore
  rw [if_neg h1, if_neg (by simpa using h2), if_neg (by simpa using h3), if_pos h4]

theorem fuzzyCore_eq_scan_fail {hay needle : List Char} (h1 : ¬ lowerL hay = lowerL needle)
    (h2 : ¬ (lowerL needle).isPrefixOf (lowerL hay) = true)
    (h3 : ¬ (splitNonAlnum (lowerL hay)).any (fun w => (lowerL needle).isPrefixOf w) = true)
    (h4 : ¬ (fuzzyScan (lowerL hay) (lowerL needle) 0 0 0).2.2 = true) :
    fuzzyCore hay needle = -1 := by
  unfold fuzzyCore
  rw [if_neg h1, if_neg (by simpa using h2), if_neg (by simpa using h3),
    if_neg (by simpa using h4)]

theorem lowerL_eq_nil {l : List Char} (h : lowerL l = []) : l = [] := by
  cases l with
  | nil => rfl
  | cons c cs => simp [lowerL] at h

/-- Any candidate the program keeps (score `≥ 0`) in fact scores at least
`5/2`: the fixed tiers give 250 or more, and a successful subsequence match
of the (necessarily non-empty) needle gives at least `1 + 1.5`. -/
theorem fuzzyCore_ge_of_nonneg {hay needle : List Char}
    (h : 0 ≤ fuzzyCore hay needle) : (5 / 2 : ℚ) ≤ fuzzyCore hay needle := by
  unfold fuzzyCore at h ⊢
  split_ifs at h ⊢ with h1 h2 h3 h4
  · norm_num
  · norm_num
  · norm_num
  · have hne : lowerL needle ≠ [] := by
      intro hnil
      rw [hnil] at h2
      simp at h2
    have hhits := fuzzyScan_ok_hits (lowerL hay) (lowerL needle) 0 0 0 h4
    have hbest := fuzzyScan_ok_best_pos (lowerL hay) (lowerL needle) 0 0 0 h4 hne
    have hlen : 1 ≤ (lowerL needle).length := by
      cases hn : lowerL needle with
      | nil => exact absurd hn hne
      | cons a as => simp
    rw [hhits]
    have hb : (1 : ℚ) ≤ ((fuzzyScan (lowerL hay) (lowerL needle) 0 0 0).2.1 : ℚ) := by
      exact_mod_cast hbest
    have hl : (1 : ℚ) ≤ (((lowerL needle).length : Nat) : ℚ) := by
      exact_mod_cast hlen
    push_cast
    nlinarith [hb, hl]
  · norm_num at h

/-- `findMatch` returns precisely the first readable matching line: its
1-based number, its truncated context, and the no-earlier-match guarantee. -/
theorem findMatch_spec :
    ∀ (ls : List (Except Unit String)) (q : List Char) (idx ln : Nat) (ctx : String),
      findMatch q ls idx = some (ln, ctx) →
      ∃ i line, ls[i]? = some (Except.ok line) ∧
        hasSubstr (lowerL line.data) q = true ∧
        ln = idx + i + 1 ∧ ctx = truncLine line ∧
        (∀ j l', j < i → ls[j]? = some (Except.ok l') →
          hasSubstr (lowerL l'.data) q = false) := by
  intro ls
  induction ls with
  | nil => intro q idx ln ctx h; simp [findMatch] at h
  | cons x rest ih =>
    intro q idx ln ctx h
    cases x with
    | error err =>
      simp only [findMatch] at h
      obtain ⟨i, line, hget, hsub, hln, hctx, hmin⟩ := ih q (idx + 1) ln ctx h
      refine ⟨i + 1, line, by simpa using hget, hsub, by omega, hctx, ?_⟩
      intro j l' hj hget'
      cases j with
      | zero => simp at hget'
      | succ j' => exact hmin j' l' (by omega) (by simpa using hget')
    | ok line0 =>
      by_cases hm : hasSubstr (lowerL line0.data) q = true
      · simp only [findMatch, if_pos hm, Option.some.injEq, Prod.mk.injEq] at h
        refine ⟨0, line0, by simp, hm, by omega, h.2.symm, ?_⟩
        intro j l' hj
        omega
      · simp only [findMatch, if_neg hm] at h
        obtain ⟨i, line, hget, hsub, hln, hctx, hmin⟩ := ih q (idx + 1) ln ctx h
        refine ⟨i + 1, line, by simpa using hget, hsub, by omega, hctx, ?_⟩
        intro j l' hj hget'
        cases j with
        | zero =>
          have hll : line0 = l' := by simpa using hget'
          rw [← hll]
          simpa using hm
        | succ j' => exact hmin j' l' (by omega) (by simpa using hget')

/-- Every result the content-walker loop adds to the accumulator comes from
an `Ok` entry of the stream via `entryHit`. -/
theorem sfcLoop_mem (q : List Char) (maxr : Nat) :
    ∀ (entries : List (Except Unit ContentEntry)) (fc : Nat)
      (acc : List SearchResult) (opened : List ContentEntry) (r : SearchResult),
      r ∈ (sfcLoop q maxr entries fc acc opened).1 →
      r ∈ acc ∨ ∃ e, Except.ok e ∈ entries ∧ entryHit q e r := by
  intro entries
  induction entries with
  | nil => intro fc acc opened r hr; exact Or.inl (by simpa [sfcLoop] using hr)
  | cons x rest ih =>
    intro fc acc opened r hr
    have weaken : r ∈ acc ∨ (∃ e, Except.ok e ∈ rest ∧ entryHit q e r) →
        r ∈ acc ∨ ∃ e, Except.ok e ∈ x :: rest ∧ entryHit q e r := by
      rintro (h | ⟨e, he, hhit⟩)
      · exact Or.inl h
      · exact Or.inr ⟨e, List.mem_cons_of_mem _ he, hhit⟩
    cases x with
    | error err =>
      simp only [sfcLoop] at hr
      rcases ih fc acc opened r hr with h | ⟨e, he, hhit⟩
      · exact Or.inl h
      · exact Or.inr ⟨e, List.mem_cons_of_mem _ he, hhit⟩
    | ok e0 =>
      simp only [sfcLoop] at hr
      by_cases hf : e0.isFile
      · rw [if_pos hf] at hr
        by_cases hfc : fc + 1 > 2000
        · rw [if_pos hfc] at hr
          exact Or.inl hr
        · rw [if_neg hfc] at hr
          by_cases hsz : e0.size > 500000
          · rw [if_pos hsz] at hr
            rcases ih _ _ _ r hr with h | ⟨e, he, hhit⟩
            · exact Or.inl h
            · exact Or.inr ⟨e, List.mem_cons_of_mem _ he, hhit⟩
          · rw [if_neg hsz] at hr
            cases heo : e0.openResult with
            | error oe =>
              simp only [heo] at hr
              rcases ih _ _ _ r hr with h | ⟨e, he, hhit⟩
              · exact Or.inl h
              · exact Or.inr ⟨e, List.mem_cons_of_mem _ he, hhit⟩
            | ok ls =>
              simp only [heo] at hr
              cases hfm : findMatch q (ls.take 500) 0 with
              | none =>
                simp only [hfm] at hr
                by_cases hlen : maxr ≤ acc.length
                · rw [if_pos hlen] at hr
                  exact Or.inl hr
                · rw [if_neg hlen] at hr
                  rcases ih _ _ _ r hr with h | ⟨e, he, hhit⟩
                  · exact Or.inl h
                  · exact Or.inr ⟨e, List.mem_cons_of_mem _ he, hhit⟩
              | some p =>
                obtain ⟨pn, pc⟩ := p
                simp only [hfm] at hr
                have hhit0 : entryHit q e0 (contentResult e0 pn pc) := by
                  obtain ⟨i, line, hget, hsub, hln, hctx, hmin⟩ :=
                    findMatch_spec (ls.take 500) q 0 pn pc hfm
                  exact ⟨ls, heo, i, line, hget, hsub, hmin, by
                    rw [hln, hctx]; simp⟩
                have step : ∀ s ∈ acc ++ [contentResult e0 pn pc],
                    s ∈ acc ∨ s = contentResult e0 pn pc := by
                  intro s hs
                  rcases List.mem_append.mp hs with h | h
                  · exact Or.inl h
                  · exact Or.inr (by simpa using h)
                by_cases hlen : maxr ≤ (acc ++ [contentResult e0 pn pc]).length
                · rw [if_pos hlen] at hr
                  rcases step r hr with h | h
                  · exact Or.inl h
                  · exact Or.inr ⟨e0, List.mem_cons_self _ _, h ▸ hhit0⟩
                · rw [if_neg hlen] at hr
                  rcases ih _ _ _ r hr with h | ⟨e, he, hhit⟩
                  · rcases step r h with h' | h'
                    · exact Or.inl h'
                    · exact Or.inr ⟨e0, List.mem_cons_self _ _, h' ▸ hhit0⟩
                  · exact Or.inr ⟨e, List.mem_cons_of_mem _ he, hhit⟩
      · rw [if_neg hf] at hr
        rcases ih _ _ _ r hr with h | ⟨e, he, hhit⟩
        · exact Or.inl h
        · exact Or.inr ⟨e, List.mem_cons_of_mem _ he, hhit⟩

/-- The loop only appends to the opened list after the 500 KB size check
has passed, so every opened entry is small. -/
theorem sfcLoop_opened_size (q : List Char) (maxr : Nat) :
    ∀ (entries : List (Except Unit ContentEntry)) (fc : Nat)
      (acc : List SearchResult) (opened : List ContentEntry),
      (∀ e ∈ opened, e.size ≤ 500000) →
      ∀ e ∈ (sfcLoop q maxr entries fc acc opened).2, e.size ≤ 500000 := by
  intro entries
  induction entries with
  | nil => intro fc acc opened hop e he; exact hop e (by simpa [sfcLoop] using he)
  | cons x rest ih =>
    intro fc acc opened hop e he
    cases x with
    | error err =>
      simp only [sfcLoop] at he
      exact ih fc acc opened hop e he
    | ok e0 =>
      simp only [sfcLoop] at he
      by_cases hf : e0.isFile
      · rw [if_pos hf] at he
        by_cases hfc : fc + 1 > 2000
        · rw [if_pos hfc] at he
          exact hop e he
        · rw [if_neg hfc] at he
          by_cases hsz : e0.size > 500000
          · rw [if_pos hsz] at he
            exact ih _ _ _ hop e he
          · have hop' : ∀ e ∈ opened ++ [e0], e.size ≤ 500000 := by
              intro e' he'
              rcases List.mem_append.mp he' with h | h
              · exact hop e' h
              · have : e' = e0 := by simpa using h
                subst this
                omega
            rw [if_neg hsz] at he
            cases heo : e0.openResult with
            | error oe =>
              simp only [heo] at he
              exact ih _ _ _ hop' e he
            | ok ls =>
              simp only [heo] at he
              cases hfm : findMatch q (ls.take 500) 0 with
              | none =>
                simp only [hfm] at he
                by_cases hlen : maxr ≤ acc.length
                · rw [if_pos hlen] at he
                  exact hop' e he
                · rw [if_neg hlen] at he
                  exact ih _ _ _ hop' e he
              | some p =>
                obtain ⟨pn, pc⟩ := p
                simp only [hfm] at he
                by_cases hlen : maxr ≤ (acc ++ [contentResult e0 pn pc]).length
                · rw [if_pos hlen] at he
                  exact hop' e he
                · rw [if_neg hlen] at he
                  exact ih _ _ _ hop' e he
      · rw [if_neg hf] at he
        exact ih fc acc opened hop e he

/-- Each `Ok` entry of the stream contributes at most one result, whose
path is the entry's path: counting results by path is bounded by the
accumulator's count plus the count of that path among the entries. -/
theorem sfcLoop_countP (q : List Char) (maxr : Nat) (p : String) :
    ∀ (entries : List (Except Unit ContentEntry)) (fc : Nat)
      (acc : List SearchResult) (opened : List ContentEntry),
      (sfcLoop q maxr entries fc acc opened).1.countP (fun r => r.path == p) ≤
        acc.countP (fun r => r.path == p) + (okContentPaths entries).count p := by
  intro entries
  induction entries with
  | nil => intro fc acc opened; simp [sfcLoop]
  | cons x rest ih =>
    intro fc acc opened
    cases x with
    | error err =>
      simp only [sfcLoop]
      simpa [okContentPaths] using ih fc acc opened
    | ok e0 =>
      have hpaths : (okContentPaths (Except.ok e0 :: rest)).count p =
          (okContentPaths rest).count p + (if e0.path == p then 1 else 0) := by
        simp [okContentPaths, List.count_cons]
      simp only [sfcLoop]
      by_cases hf : e0.isFile
      · rw [if_pos hf]
        by_cases hfc : fc + 1 > 2000
        · rw [if_pos hfc]
          simp
        · rw [if_neg hfc]
          by_cases hsz : e0.size > 500000
          · rw [if_pos hsz]
            have := ih (fc + 1) acc opened
            omega
          · rw [if_neg hsz]
            cases heo : e0.openResult with
            | error oe =>
              simp only []
              have := ih (fc + 1) acc (opened ++ [e0])
              omega
            | ok ls =>
              simp only []
              cases hfm : findMatch q (ls.take 500) 0 with
              | none =>
                simp only []
                by_cases hlen : maxr ≤ acc.length
                · rw [if_pos hlen]
                  simp
                · rw [if_neg hlen]
                  have := ih (fc + 1) acc (opened ++ [e0])
                  omega
              | some pr =>
                obtain ⟨pn, pc⟩ := pr
                simp only []
                have hacc : (acc ++ [contentResult e0 pn pc]).countP
                    (fun r => r.path == p) =
                    acc.countP (fun r => r.path == p) +
                      (if e0.path == p then 1 else 0) := by
                  rw [List.countP_append]
                  simp [contentResult, List.countP_cons]
                by_cases hlen : maxr ≤ (acc ++ [contentResult e0 pn pc]).length
                · rw [if_pos hlen]
                  simp only []
                  omega
                · rw [if_neg hlen]
                  have := ih (fc + 1) (acc ++ [contentResult e0 pn pc]) (opened ++ [e0])
                  omega
      · rw [if_neg hf]
        have := ih fc acc opened
        omega

/-! The walkers skip `Err` stream items without any other effect, modelling
`filter_map(|e| e.ok())`. -/

theorem dropErrors_cons_ok {α : Type} (a : α) (l : List (Except Unit α)) :
    dropErrors (Except.ok a :: l) = Except.ok a :: dropErrors l := by
  simp [dropErrors, List.filter_cons, Except.isOk, Except.toBool]

theorem dropErrors_cons_err {α : Type} (e : Unit) (l : List (Except Unit α)) :
    dropErrors (Except.error e :: l) = dropErrors l := by
  simp [dropErrors, List.filter_cons, Except.isOk, Except.toBool]

theorem sfbnLoop_dropErrors (q : String) (maxr : Nat) :
    ∀ (entries : List (Except Unit FsEntry)) (cnt : Nat) (acc : List SearchResult),
      sfbnLoop q maxr (dropErrors entries) cnt acc = sfbnLoop q maxr entries cnt acc := by
  intro entries
  induction entries with
  | nil => intro cnt acc; rfl
  | cons x rest ih =>
    intro cnt acc
    cases x with
    | error err =>
      rw [dropErrors_cons_err]
      simp only [sfbnLoop]
      exact ih cnt acc
    | ok e =>
      rw [dropErrors_cons_ok]
      simp only [sfbnLoop]
      by_cases h1 : cnt + 1 > 5000
      · simp only [if_pos h1]
      · simp only [if_neg h1]
        cases hn : e.name with
        | none => exact ih _ _
        | some nm =>
          by_cases h2 : 0 ≤ fuzzy_score nm q
          · simp only [if_pos h2]
            by_cases h3 : maxr * 2 ≤ (acc ++ [nameResult e nm (fuzzy_score nm q)]).length
            · simp only [if_pos h3]
            · simp only [if_neg h3]
              exact ih _ _
          · simp only [if_neg h2]
            exact ih _ _

theorem sfcLoop_dropErrors (q : List Char) (maxr : Nat) :
    ∀ (entries : List (Except Unit ContentEntry)) (fc : Nat)
      (acc : List SearchResult) (opened : List ContentEntry),
      sfcLoop q maxr (dropErrors entries) fc acc opened =
        sfcLoop q maxr entries fc acc opened := by
  intro entries
  induction entries with
  | nil => intro fc acc opened; rfl
  | cons x rest ih =>
    intro fc acc opened
    cases x with
    | error err =>
      rw [dropErrors_cons_err]
      simp only [sfcLoop]
      exact ih fc acc opened
    | ok e0 =>
      rw [dropErrors_cons_ok]
      simp only [sfcLoop]
      by_cases hf : e0.isFile
      · simp only [if_pos hf]
        by_cases hfc : fc + 1 > 2000
        · simp only [if_pos hfc]
        · simp only [if_neg hfc]
          by_cases hsz : e0.size > 500000
          · simp only [if_pos hsz]
            exact ih _ _ _
          · simp only [if_neg hsz]
            cases heo : e0.openResult with
            | error oe =>
              simp only []
              exact ih _ _ _
            | ok ls =>
              simp only []
              cases hfm : findMatch q (ls.take 500) 0 with
              | none =>
                simp only []
                by_cases hlen : maxr ≤ acc.length
                · simp only [if_pos hlen]
                · simp only [if_neg hlen]
                  exact ih _ _ _
              | some pr =>
                obtain ⟨pn, pc⟩ := pr
                simp only []
                by_cases hlen : maxr ≤ (acc ++ [contentResult e0 pn pc]).length
                · simp only [if_pos hlen]
                · simp only [if_neg hlen]
                  exact ih _ _ _
      · simp only [if_neg hf]
        exact ih fc acc opened

/-! Facts about the byte-faithful content pipeline. -/

/-- `findMatchB` returns precisely the first readable matching line, its
1-based number and the byte-level context outcome of that line. -/
theorem findMatchB_spec :
    ∀ (ls : List (Except Unit String)) (q : List Char) (idx ln : Nat)
      (ctxE : Except Unit String),
      findMatchB q ls idx = some (ln, ctxE) →
      ∃ i line, ls[i]? = some (Except.ok line) ∧
        hasSubstr (lowerL line.data) q = true ∧
        ln = idx + i + 1 ∧ ctxE = lineContext line ∧
        (∀ j l', j < i → ls[j]? = some (Except.ok l') →
          hasSubstr (lowerL l'.data) q = false) := by
  intro ls
  induction ls with
  | nil => intro q idx ln ctxE h; simp [findMatchB] at h
  | cons x rest ih =>
    intro q idx ln ctxE h
    cases x with
    | error err =>
      simp only [findMatchB] at h
      obtain ⟨i, line, hget, hsub, hln, hctx, hmin⟩ := ih q (idx + 1) ln ctxE h
      refine ⟨i + 1, line, by simpa using hget, hsub, by omega, hctx, ?_⟩
      intro j l' hj hget'
      cases j with
      | zero => simp at hget'
      | succ j' => exact hmin j' l' (by omega) (by simpa using hget')
    | ok line0 =>
      by_cases hm : hasSubstr (lowerL line0.data) q = true
      · simp only [findMatchB, if_pos hm, Option.some.injEq, Prod.mk.injEq] at h
        refine ⟨0, line0, by simp, hm, by omega, h.2.symm, ?_⟩
        intro j l' hj
        omega
      · simp only [findMatchB, if_neg hm] at h
        obtain ⟨i, line, hget, hsub, hln, hctx, hmin⟩ := ih q (idx + 1) ln ctxE h
        refine ⟨i + 1, line, by simpa using hget, hsub, by omega, hctx, ?_⟩
        intro j l' hj hget'
        cases j with
        | zero =>
          have hll : line0 = l' := by simpa using hget'
          rw [← hll]
          simpa using hm
        | succ j' => exact hmin j' l' (by omega) (by simpa using hget')

/-- Unfolding `search_file_contentsB` on a non-panicking run. -/
theorem search_file_contentsB_ok {entries : List (Except Unit ContentEntry)}
    {query : String} {max_results : Nat} {rs : List SearchResult}
    (h : search_file_contentsB entries query max_results = Except.ok rs) :
    ∃ rs0, sfcLoopB (lowerL query.data) max_results entries 0 [] = Except.ok rs0 ∧
      rs = rs0.take max_results := by
  unfold search_file_contentsB at h
  cases hsl : sfcLoopB (lowerL query.data) max_results entries 0 [] with
  | error e => rw [hsl] at h; simp [Except.map] at h
  | ok rs0 =>
    rw [hsl] at h
    simp only [Except.map, Except.ok.injEq] at h
    exact ⟨rs0, rfl, h.symm⟩

/-- Every result of a non-panicking run of the byte-faithful loop comes
from an `Ok` entry of the stream via `entryHitB`. -/
theorem sfcLoopB_mem (q : List Char) (maxr : Nat) :
    ∀ (entries : List (Except Unit ContentEntry)) (fc : Nat)
      (acc rs : List SearchResult) (r : SearchResult),
      sfcLoopB q maxr entries fc acc = Except.ok rs → r ∈ rs →
      r ∈ acc ∨ ∃ e, Except.ok e ∈ entries ∧ entryHitB q e r := by
  intro entries
  induction entries with
  | nil =>
    intro fc acc rs r hok hr
    have : acc = rs := by simpa [sfcLoopB] using hok
    exact Or.inl (this ▸ hr)
  | cons x rest ih =>
    intro fc acc rs r hok hr
    cases x with
    | error err =>
      simp only [sfcLoopB] at hok
      rcases ih fc acc rs r hok hr with h | ⟨e, he, hhit⟩
      · exact Or.inl h
      · exact Or.inr ⟨e, List.mem_cons_of_mem _ he, hhit⟩
    | ok e0 =>
      simp only [sfcLoopB] at hok
      by_cases hf : e0.isFile
      · rw [if_pos hf] at hok
        by_cases hfc : fc + 1 > 2000
        · rw [if_pos hfc] at hok
          have : acc = rs := by simpa using hok
          exact Or.inl (this ▸ hr)
        · rw [if_neg hfc] at hok
          by_cases hsz : e0.size > 500000
          · rw [if_pos hsz] at hok
            rcases ih _ _ _ r hok hr with h | ⟨e, he, hhit⟩
            · exact Or.inl h
            · exact Or.inr ⟨e, List.mem_cons_of_mem _ he, hhit⟩
          · rw [if_neg hsz] at hok
            cases heo : e0.openResult with
            | error oe =>
              simp only [heo] at hok
              rcases ih _ _ _ r hok hr with h | ⟨e, he, hhit⟩
              · exact Or.inl h
              · exact Or.inr ⟨e, List.mem_cons_of_mem _ he, hhit⟩
            | ok ls =>
              simp only [heo] at hok
              cases hfm : findMatchB q (ls.take 500) 0 with
              | none =>
                simp only [hfm] at hok
                by_cases hlen : maxr ≤ acc.length
                · rw [if_pos hlen] at hok
                  have : acc = rs := by simpa using hok
                  exact Or.inl (this ▸ hr)
                · rw [if_neg hlen] at hok
                  rcases ih _ _ _ r hok hr with h | ⟨e, he, hhit⟩
                  · exact Or.inl h
                  · exact Or.inr ⟨e, List.mem_cons_of_mem _ he, hhit⟩
              | some pr =>
                obtain ⟨pn, pce⟩ := pr
                cases pce with
                | error pe =>
                  simp only [hfm] at hok
                  simp at hok
                | ok ctx =>
                  simp only [hfm] at hok
                  have hhit0 : entryHitB q e0 (contentResult e0 pn ctx) := by
                    obtain ⟨i, line, hget, hsub, hln, hctx, hmin⟩ :=
                      findMatchB_spec (ls.take 500) q 0 pn (Except.ok ctx) hfm
                    exact ⟨ls, heo, i, line, ctx, hget, hsub, hmin, hctx.symm,
                      by rw [hln]; simp⟩
                  have step : ∀ s ∈ acc ++ [contentResult e0 pn ctx],
                      s ∈ acc ∨ s = contentResult e0 pn ctx := by
                    intro s hs
                    rcases List.mem_append.mp hs with h | h
                    · exact Or.inl h
                    · exact Or.inr (by simpa using h)
                  by_cases hlen : maxr ≤ (acc ++ [contentResult e0 pn ctx]).length
                  · rw [if_pos hlen] at hok
                    have : acc ++ [contentResult e0 pn ctx] = rs := by simpa using hok
                    rcases step r (this ▸ hr) with h | h
                    · exact Or.inl h
                    · exact Or.inr ⟨e0, List.mem_cons_self _ _, h ▸ hhit0⟩
                  · rw [if_neg hlen] at hok
                    rcases ih _ _ _ r hok hr with h | ⟨e, he, hhit⟩
                    · rcases step r h with h' | h'
                      · exact Or.inl h'
                      · exact Or.inr ⟨e0, List.mem_cons_self _ _, h' ▸ hhit0⟩
                    · exact Or.inr ⟨e, List.mem_cons_of_mem _ he, hhit⟩
      · rw [if_neg hf] at hok
        rcases ih fc acc rs r hok hr with h | ⟨e, he, hhit⟩
        · exact Or.inl h
        · exact Or.inr ⟨e, List.mem_cons_of_mem _ he, hhit⟩

/-! The claims. -/

/-- C1: for every query string and every state of the three sources, the
list returned by `unified_search` has length at most 50, regardless of how
many candidate results were collected. -/
theorem unified_search_length_le_50 (apps : List AppEntry)
    (nameEntries : List (Except Unit FsEntry))
    (contentEntries : List (Except Unit ContentEntry)) (query : String) :
    (unified_search apps nameEntries contentEntries query).length ≤ 50 := by
  unfold unified_search
  by_cases h : rustTrimIsEmpty query = true
  · simp [h]
  · simp only [h, if_false, Bool.false_eq_true]
    rw [List.length_take]
    omega

/-- C2: for every query that is empty or whitespace-only, `unified_search`
returns the empty list, whatever the three sources would have produced —
the guard fires before any source is consulted. -/
theorem unified_search_empty_query (apps : List AppEntry)
    (nameEntries : List (Except Unit FsEntry))
    (contentEntries : List (Except Unit ContentEntry)) (query : String)
    (h : rustTrimIsEmpty query = true) :
    unified_search apps nameEntries contentEntries query = [] := by
  unfold unified_search
  rw [if_pos h]

/-- Witness for C2 at the whitespace query `"   "` with all three sources
non-empty. -/
theorem unified_search_empty_query_witness :
    rustTrimIsEmpty "   " = true ∧
    unified_search [wApp] [Except.ok wFs] [Except.ok wContent] "   " = [] :=
  ⟨by decide, unified_search_empty_query [wApp] [Except.ok wFs] [Except.ok wContent]
    "   " (by decide)⟩

/-- The error paths the code does handle: `Err` items in either walker
stream are skipped with no effect on the result, and a missing home
directory falls back to the root `"/"`.  This does not make the search
path failure-free: the byte-slice panic of the context computation is a
reachable failure, exhibited at `unified_search_panics_on_boundary`. -/
theorem unified_search_skips_err_entries (apps : List AppEntry)
    (nameEntries : List (Except Unit FsEntry))
    (contentEntries : List (Except Unit ContentEntry)) (query : String) :
    unified_search apps (dropErrors nameEntries) (dropErrors contentEntries) query =
      unified_search apps nameEntries contentEntries query ∧
    resolveHome none = "/" ∧ ∀ hp : String, resolveHome (some hp) = hp := by
  refine ⟨?_, rfl, fun hp => rfl⟩
  unfold unified_search
  by_cases h : rustTrimIsEmpty query = true
  · rw [if_pos h, if_pos h]
  · rw [if_neg h, if_neg h]
    unfold search_files_by_name search_file_contents
    rw [sfbnLoop_dropErrors, sfcLoop_dropErrors]

/-- C10, evaluated at the failing input: the claim states the intended
error-handling design, but an encoding condition on the search path does
fail the call.  With query `"aaaa"` and a readable file whose matched
line is 99 `a`s followed by the two-byte `é`, the line is 101 UTF-8 bytes
and byte offset 100 falls inside the `é`, so `&line[..100]` in the context
computation panics and the search returns no list at all. -/
theorem unified_search_panics_on_boundary :
    unified_searchB [] [] [Except.ok panicEntry] "aaaa" = Except.error () ∧
    100 < panicLine.utf8ByteSize ∧
    byteTake panicLine.data 100 = none ∧
    hasSubstr (lowerL panicLine.data) (lowerL "aaaa".data) = true := by
  refine ⟨by decide, by decide, by decide, by decide⟩

/-- C3: `fuzzy_score` compares case-insensitively (it depends only on the
lowercased inputs), returns by first matching tier 1000 on equality, 500 on
a prefix, 250 on a word-boundary prefix, and otherwise scores a successful
greedy subsequence scan as `hits + 1.5 × longest run` with `hits` equal to
the (lowercased) needle length, or `-1` when the scan fails; with the six
concrete values of the specification. -/
theorem fuzzy_score_tiers :
    (∀ hay needle hay2 needle2 : String, lowerL hay.data = lowerL hay2.data →
      lowerL needle.data = lowerL needle2.data →
      fuzzy_score hay needle = fuzzy_score hay2 needle2) ∧
    fuzzy_score "firefox" "firefox" = 1000 ∧
    fuzzy_score "firefox" "fire" = 500 ∧
    fuzzy_score "my-cool-app" "cool" = 250 ∧
    fuzzy_score "fbx" "fox" = -1 ∧
    fuzzy_score "abc" "cab" = -1 ∧
    0 < fuzzy_score "abcdef" "ace" ∧
    ∀ hay needle : String,
      (lowerL hay.data = lowerL needle.data → fuzzy_score hay needle = 1000) ∧
      (¬ lowerL hay.data = lowerL needle.data →
        (lowerL needle.data).isPrefixOf (lowerL hay.data) = true →
        fuzzy_score hay needle = 500) ∧
      (¬ lowerL hay.data = lowerL needle.data →
        ¬ (lowerL needle.data).isPrefixOf (lowerL hay.data) = true →
        (splitNonAlnum (lowerL hay.data)).any
          (fun w => (lowerL needle.data).isPrefixOf w) = true →
        fuzzy_score hay needle = 250) ∧
      (¬ lowerL hay.data = lowerL needle.data →
        ¬ (lowerL needle.data).isPrefixOf (lowerL hay.data) = true →
        ¬ (splitNonAlnum (lowerL hay.data)).any
          (fun w => (lowerL needle.data).isPrefixOf w) = true →
        (fuzzyScan (lowerL hay.data) (lowerL needle.data) 0 0 0).2.2 = true →
        fuzzy_score hay needle = ((lowerL needle.data).length : ℚ) +
          ((fuzzyScan (lowerL hay.data) (lowerL needle.data) 0 0 0).2.1 : ℚ) * 1.5) ∧
      (¬ lowerL hay.data = lowerL needle.data →
        ¬ (lowerL needle.data).isPrefixOf (lowerL hay.data) = true →
        ¬ (splitNonAlnum (lowerL hay.data)).any
          (fun w => (lowerL needle.data).isPrefixOf w) = true →
        ¬ (fuzzyScan (lowerL hay.data) (lowerL needle.data) 0 0 0).2.2 = true →
        fuzzy_score hay needle = -1) := by
  refine ⟨?_, by decide, by decide, by decide, by decide, by decide, by decide, ?_⟩
  · intro hay needle hay2 needle2 h1 h2
    unfold fuzzy_score fuzzyCore
    rw [h1, h2]
  · intro hay needle
    refine ⟨fun h1 => fuzzyCore_eq_exact h1, fun h1 h2 => fuzzyCore_eq_pre h1 h2,
      fun h1 h2 h3 => fuzzyCore_eq_word h1 h2 h3, ?_,
      fun h1 h2 h3 h4 => fuzzyCore_eq_scan_fail h1 h2 h3 h4⟩
    intro h1 h2 h3 h4
    have := fuzzyCore_eq_scan_ok h1 h2 h3 h4
    rw [show fuzzy_score hay needle = fuzzyCore hay.data needle.data from rfl, this,
      fuzzyScan_ok_hits _ _ 0 0 0 h4]
    norm_num

/-- Witness for C3: the subsequence tier applied to the pair
`("xyz", "y")`, whose tiers 1 to 3 all fail and whose scan succeeds. -/
theorem fuzzy_score_tiers_witness :
    fuzzy_score "xyz" "y" = ((lowerL "y".data).length : ℚ) +
      ((fuzzyScan (lowerL "xyz".data) (lowerL "y".data) 0 0 0).2.1 : ℚ) * 1.5 :=
  (fuzzy_score_tiers.2.2.2.2.2.2.2 "xyz" "y").2.2.2.1 (by decide) (by decide)
    (by decide) (by decide)

/-- C4 counterexample: the claim says the empty needle scores exactly 0 on
every non-empty haystack, but the code returns 500 there — an empty needle
is a prefix of any string, so the prefix tier fires. -/
theorem fuzzy_score_empty_needle_cex :
    fuzzy_score "a" "" = 500 ∧ fuzzy_score "a" "" ≠ 0 := by
  constructor <;> decide

/-- C4 (amended): for the empty needle, `fuzzy_score` returns 1000 on the
empty haystack (exact tier) and 500 on every non-empty haystack (prefix
tier, since the empty needle is a prefix of anything); in particular it is
never negative. -/
theorem fuzzy_score_empty_needle (h : String) :
    fuzzy_score h "" = (if h = "" then 1000 else 500) ∧ 0 ≤ fuzzy_score h "" := by
  by_cases he : h = ""
  · subst he
    refine ⟨by decide, by decide⟩
  · rw [if_neg he]
    have hd : h.data ≠ [] := fun hdata => he (String.ext (by rw [hdata]))
    have h1 : ¬ lowerL h.data = lowerL "".data := fun hl => hd (lowerL_eq_nil hl)
    have h2 : (lowerL "".data).isPrefixOf (lowerL h.data) = true := by
      show List.isPrefixOf [] (lowerL h.data) = true
      simp
    have := fuzzyCore_eq_pre h1 h2
    exact ⟨this, by rw [show fuzzy_score h "" = fuzzyCore h.data "".data from rfl, this]; norm_num⟩

/-- C6 counterexample: the claim promises character-based truncation, but
the code truncates at 100 UTF-8 bytes.  The line `cexLine` of 60 two-byte
characters is well under 100 characters, yet the emitted context is the
first 100 bytes â 50 characters â plus the ellipsis, not the line. -/
theorem search_file_contents_context_cex :
    search_file_contentsB [Except.ok cexEntry] "éé" 15 = Except.ok [cexRes] ∧
    cexRes.context = some cexCtx ∧ cexLine.length ≤ 100 ∧ cexCtx ≠ cexLine := by
  refine ⟨by decide, by decide, by decide, by decide⟩

/-- C6 (amended): every `Content` result of a non-panicking run carries as
`context` the matched line when it has at most 100 UTF-8 bytes and
otherwise the line's first 100 bytes followed by the ellipsis marker (when
byte 100 is not a character boundary the walker panics instead of
emitting), and as `line_number` the 1-based index of the matched line
within the (first 500 lines of the) file. -/
theorem search_file_contents_contextB (entries : List (Except Unit ContentEntry))
    (query : String) (max_results : Nat) (rs : List SearchResult) (r : SearchResult)
    (hok : search_file_contentsB entries query max_results = Except.ok rs)
    (hr : r ∈ rs) :
    ∃ e ls i line ctx, Except.ok e ∈ entries ∧ e.openResult = Except.ok ls ∧
      (ls.take 500)[i]? = some (Except.ok line) ∧
      hasSubstr (lowerL line.data) (lowerL query.data) = true ∧
      r.context = some ctx ∧ r.line_number = some (i + 1) ∧
      (line.utf8ByteSize ≤ 100 → ctx = line) ∧
      (100 < line.utf8ByteSize →
        ∃ p, byteTake line.data 100 = some p ∧ ctx = String.mk (p ++ "...".data)) := by
  obtain ⟨rs0, hsl, htake⟩ := search_file_contentsB_ok hok
  have hr' : r ∈ rs0 := List.mem_of_mem_take (htake ▸ hr)
  rcases sfcLoopB_mem _ _ entries 0 [] rs0 r hsl hr' with h |
    ⟨e, he, ls, heo, i, line, ctx, hget, hsub, hmin, hctx, hre⟩
  · simp at h
  · refine ⟨e, ls, i, line, ctx, he, heo, hget, hsub, by rw [hre]; rfl,
      by rw [hre]; rfl, ?_, ?_⟩
    · intro hle
      unfold lineContext at hctx
      rw [if_neg (by omega)] at hctx
      have : line = ctx := by simpa using hctx
      exact this.symm
    · intro hgt
      unfold lineContext at hctx
      rw [if_pos hgt] at hctx
      cases hbt : byteTake line.data 100 with
      | none => rw [hbt] at hctx; simp at hctx
      | some p =>
        rw [hbt] at hctx
        have : String.mk (p ++ "...".data) = ctx := by simpa using hctx
        exact ⟨p, rfl, this.symm⟩

/-- Witness for C6 (amended): the single-entry stream `wContent` with
query `milk` produces exactly `wContentRes`, whose 8-byte line is kept
whole. -/
theorem search_file_contents_contextB_witness :
    ∃ e ls i line ctx,
      Except.ok e ∈ ([Except.ok wContent] : List (Except Unit ContentEntry)) ∧
      e.openResult = Except.ok ls ∧
      (ls.take 500)[i]? = some (Except.ok line) ∧
      hasSubstr (lowerL line.data) (lowerL "milk".data) = true ∧
      wContentRes.context = some ctx ∧ wContentRes.line_number = some (i + 1) ∧
      (line.utf8ByteSize ≤ 100 → ctx = line) ∧
      (100 < line.utf8ByteSize →
        ∃ p, byteTake line.data 100 = some p ∧ ctx = String.mk (p ++ "...".data)) :=
  search_file_contents_contextB [Except.ok wContent] "milk" 15 [wContentRes]
    wContentRes (by decide) (by decide)

/-- C7: during one invocation of `search_file_contents`, no file larger
than 500000 bytes is ever opened, and — provided the walker yields each
path at most once — at most one `Content` result is emitted per file, and
it corresponds to the first matching line only. -/
theorem search_file_contents_budget (entries : List (Except Unit ContentEntry))
    (query : String) (max_results : Nat)
    (hnd : (okContentPaths entries).Nodup) :
    (∀ e ∈ contentOpened entries query max_results, e.size ≤ 500000) ∧
    (∀ p : String, ((search_file_contents entries query max_results).filter
      (fun r => r.path == p)).length ≤ 1) ∧
    (∀ r ∈ search_file_contents entries query max_results,
      ∃ e ls i line, Except.ok e ∈ entries ∧ e.openResult = Except.ok ls ∧
        (ls.take 500)[i]? = some (Except.ok line) ∧
        hasSubstr (lowerL line.data) (lowerL query.data) = true ∧
        (∀ j l', j < i → (ls.take 500)[j]? = some (Except.ok l') →
          hasSubstr (lowerL l'.data) (lowerL query.data) = false) ∧
        r.line_number = some (i + 1)) := by
  refine ⟨?_, ?_, ?_⟩
  · intro e he
    exact sfcLoop_opened_size _ _ entries 0 [] [] (by simp) e he
  · intro p
    have h1 : ((sfcLoop (lowerL query.data) max_results entries 0 [] []).1.countP
        (fun r => r.path == p)) ≤ 0 + (okContentPaths entries).count p := by
      simpa using sfcLoop_countP (lowerL query.data) max_results p entries 0 [] []
    have h2 : (okContentPaths entries).count p ≤ 1 :=
      List.nodup_iff_count_le_one.mp hnd p
    have h3 : (search_file_contents entries query max_results).countP
        (fun r => r.path == p) ≤
        (sfcLoop (lowerL query.data) max_results entries 0 [] []).1.countP
          (fun r => r.path == p) :=
      List.Sublist.countP_le _ (List.take_sublist _ _)
    rw [← List.countP_eq_length_filter]
    omega
  · intro r hr
    have hr' : r ∈ (sfcLoop (lowerL query.data) max_results entries 0 [] []).1 :=
      List.mem_of_mem_take hr
    rcases sfcLoop_mem _ _ entries 0 [] [] r hr' with h |
      ⟨e, he, ls, heo, i, line, hget, hsub, hmin, hre⟩
    · simp at h
    · exact ⟨e, ls, i, line, he, heo, hget, hsub, hmin, by rw [hre]; rfl⟩

/-- Witness for C7 on the single-entry stream `wContent` with query
`milk`. -/
theorem search_file_contents_budget_witness :
    (∀ e ∈ contentOpened [Except.ok wContent] "milk" 15, e.size ≤ 500000) ∧
    (∀ p : String, ((search_file_contents [Except.ok wContent] "milk" 15).filter
      (fun r => r.path == p)).length ≤ 1) ∧
    (∀ r ∈ search_file_contents [Except.ok wContent] "milk" 15,
      ∃ e ls i line,
        Except.ok e ∈ ([Except.ok wContent] : List (Except Unit ContentEntry)) ∧
        e.openResult = Except.ok ls ∧
        (ls.take 500)[i]? = some (Except.ok line) ∧
        hasSubstr (lowerL line.data) (lowerL "milk".data) = true ∧
        (∀ j l', j < i → (ls.take 500)[j]? = some (Except.ok l') →
          hasSubstr (lowerL l'.data) (lowerL "milk".data) = false) ∧
        r.line_number = some (i + 1)) :=
  search_file_contents_budget [Except.ok wContent] "milk" 15 (by decide)

/-- C8: an app result whose base fuzzy score equals the base fuzzy score of
a name-walker result gets a strictly higher final score in
`unified_search`: the ×100 app boost beats the ×5 (or ×0.5 penalized) name
boost at any non-negative — hence strictly positive — base score. -/
theorem app_results_outrank_name_results (app : AppEntry) (q fname p : String)
    (heq : max (fuzzy_score app.name q) (fuzzy_score app.exec q) = fuzzy_score fname q)
    (hpos : 0 ≤ fuzzy_score fname q) :
    nameFinalScore (fuzzy_score fname q) p < appFinalScore app q := by
  have h52 : (5 / 2 : ℚ) ≤ fuzzy_score fname q := fuzzyCore_ge_of_nonneg hpos
  unfold appFinalScore nameFinalScore configPenalty
  rw [heq]
  by_cases hc : isConfigPath p = true
  · rw [if_pos hc]
    nlinarith [h52]
  · rw [if_neg hc]
    nlinarith [h52]

/-- Witness for C8: the app `wApp` and the file name `fireplace` both score
500 against the query `fire`. -/
theorem app_results_outrank_name_results_witness :
    nameFinalScore (fuzzy_score "fireplace" "fire") "/home/u/fireplace" <
      appFinalScore wApp "fire" :=
  app_results_outrank_name_results wApp "fire" "fireplace" "/home/u/fireplace"
    (by decide) (by decide)

/-- C9: of two name-walker results with the same (non-negative) base fuzzy
score, the one whose path contains a `/.config/`, `/.local/` or `/.cache/`
segment gets a strictly lower final score in `unified_search` than the one
whose path contains none (net ×0.5 versus ×5). -/
theorem config_paths_penalized (fname q p1 p2 : String)
    (hpos : 0 ≤ fuzzy_score fname q)
    (h1 : isConfigPath p1 = true) (h2 : isConfigPath p2 = false) :
    nameFinalScore (fuzzy_score fname q) p1 < nameFinalScore (fuzzy_score fname q) p2 := by
  have h52 : (5 / 2 : ℚ) ≤ fuzzy_score fname q := fuzzyCore_ge_of_nonneg hpos
  unfold nameFinalScore configPenalty
  rw [if_pos h1, if_neg (by simp [h2])]
  nlinarith [h52]

/-- Witness for C9: the same base score 500 under `/.config/` and outside
it. -/
theorem config_paths_penalized_witness :
    nameFinalScore (fuzzy_score "fireplace" "fire") "/home/u/.config/fireplace" <
      nameFinalScore (fuzzy_score "fireplace" "fire") "/home/u/fireplace" :=
  config_paths_penalized "fireplace" "fire" "/home/u/.config/fireplace"
    "/home/u/fireplace" (by decide) (by decide) (by decide)

end
